import Mathlib

/- Verification development for ParallelRegression.py (distributed ridge
   regression on Spark).

   Modelling conventions:
   - Python floats are modelled by exact rationals.
   - A Spark RDD of records is modelled by a list of pairs; `rdd.count()` is
     the list length; `rdd.reduce(op)` is a fold over a nonempty list and is
     modelled as an Option-valued reduction (none models the exception that
     Spark raises when reducing an empty RDD, and the ZeroDivisionError of
     1/n at n = 0).
   - numpy one-dimensional arrays are lists of rationals; `np.dot` on such
     arrays is the inner product; elementwise arithmetic is zipWith.
   - `np.linalg.norm v` leaves the rationals (a square root), so the code is
     embedded with the squared norm, and a comparison eps < norm v is
     embedded as the exactly equivalent predicate eps < 0 or eps^2 < normSq v
     (lemma ltNormSq_iff_lt_sqrt below justifies the equivalence). -/

namespace ParallelRegression

abbrev Vec := List ℚ

/-- Inner product of two numpy one-dimensional arrays (np.dot). -/
def dot (u v : Vec) : ℚ := (List.zipWith (· * ·) u v).sum

/-- Elementwise numpy vector addition. -/
def vadd (u v : Vec) : Vec := List.zipWith (· + ·) u v

/-- Elementwise numpy vector subtraction. -/
def vsub (u v : Vec) : Vec := List.zipWith (· - ·) u v

/-- Multiplication of a numpy vector by a scalar. -/
def smul (c : ℚ) (v : Vec) : Vec := v.map (fun a => c * a)

/-- Square of np.linalg.norm v, kept in the rationals. -/
def normSq (v : Vec) : ℚ := dot v v

/-- Embedding of the float comparison eps < np.linalg.norm(v), expressed on
the squared norm s = normSq v: eps < sqrt s holds iff eps < 0 or eps^2 < s. -/
def ltNormSq (eps s : ℚ) : Bool := decide (eps < 0) || decide (eps ^ 2 < s)

/-- Spark reduce with the addition lambda on an RDD of scalars: none on an
empty RDD (Spark raises), otherwise the fold of the tail onto the head. -/
def reduceAdd : List ℚ → Option ℚ
  | [] => none
  | h :: t => some (t.foldl (· + ·) h)

/-- Spark reduce with the addition lambda on an RDD of numpy vectors. -/
def reduceVAdd : List Vec → Option Vec
  | [] => none
  | h :: t => some (t.foldl vadd h)

/-- Source predict: the predicted value np.dot(beta.transpose(), x). -/
def predict (x beta : Vec) : ℚ := dot beta x

/-- Source f: the square error (y - np.dot(beta.transpose(), x)) ** 2. -/
def f (x : Vec) (y : ℚ) (beta : Vec) : ℚ := (y - dot beta x) ^ 2

/-- Source localGradient: -2 * (y - np.dot(beta.transpose(), x)) * x. -/
def localGradient (x : Vec) (y : ℚ) (beta : Vec) : Vec :=
  smul (-2 * (y - dot beta x)) x

/-- Source F: n = data.count(); 1/n times the reduced sum of the mapped
per-record square errors, plus lam * np.dot(beta, beta). In the source lam
has default value 1.0; callers that rely on the default pass 1 here. -/
def F (data : List (Vec × ℚ)) (beta : Vec) (lam : ℚ) : Option ℚ :=
  (reduceAdd (data.map (fun p => f p.1 p.2 beta))).map
    (fun s => 1 / (data.length : ℚ) * s + lam * dot beta beta)

/-- Source gradient: n = data.count(); gd_temp = reduced sum of the mapped
per-record local gradients; gd = 1/n * gd_temp + 2 * lam * beta. In the
source lam has default value 1.0; no caller relies on that default. -/
def gradient (data : List (Vec × ℚ)) (beta : Vec) (lam : ℚ) : Option Vec :=
  (reduceVAdd (data.map (fun p => localGradient p.1 p.2 beta))).map
    (fun s => vadd (smul (1 / (data.length : ℚ)) s) (smul (2 * lam) beta))

/-- Source test: returns F(data, beta), i.e. F at its default lam = 1.0. -/
def test (data : List (Vec × ℚ)) (beta : Vec) : Option ℚ := F data beta 1

/-- Total value of F, used as the scalar function handed to the line search
inside train. Inside the training loop the dataset is nonempty (otherwise
train has already failed), where this agrees with F. -/
def Fval (data : List (Vec × ℚ)) (beta : Vec) (lam : ℚ) : ℚ :=
  (F data beta lam).getD 0

/-- Armijo sufficient-decrease condition at step size t: the exit condition
of the backtracking loop in lineSearch, fn(x - t * grad) <=
fn(x) - a * t * np.dot(grad, grad). -/
def armijoAt (fn : Vec → ℚ) (x g : Vec) (a t : ℚ) : Prop :=
  fn (vsub x (smul t g)) ≤ fn x - a * t * dot g g

instance (fn : Vec → ℚ) (x g : Vec) (a t : ℚ) :
    Decidable (armijoAt fn x g a t) := by
  unfold armijoAt
  infer_instance

/-- Body of the source lineSearch while loop: while
fn(x - t * grad) > fn(x) - a * t * np.dot(grad, grad) the step becomes
b * t. The source loop has no iteration cap; the fuel argument makes the
embedding total, with none modelling running beyond the given fuel. -/
def lineSearchGo (fn : Vec → ℚ) (x g : Vec) (a b : ℚ) : ℕ → ℚ → Option ℚ
  | 0, _ => none
  | fuel + 1, t =>
    if fn x - a * t * dot g g < fn (vsub x (smul t g)) then
      lineSearchGo fn x g a b fuel (b * t)
    else some t

/-- Source lineSearch: backtracking line search starting at t = 1.0. In the
source a and b default to 0.2 and 0.6; callers relying on the defaults pass
1/5 and 3/5 here. -/
def lineSearch (fn : Vec → ℚ) (x g : Vec) (a b : ℚ) (fuel : ℕ) : Option ℚ :=
  lineSearchGo fn x g a b fuel 1

/- ---------- gradient descent training ---------- -/

/-- The while loop of the source train. The state is the current beta, the
stored squared gradient norm ns (the guard compares eps with its square
root, embedded by ltNormSq), and the iteration count k. The argument left
is max_iter - k, so left = 0 is exactly the guard k < max_iter failing.
The fuel argument is handed to each inner lineSearch call. The body
recomputes gd = gradient(data, beta, lam), computes F(data, beta, lam)
(only printed, so discarded here, but failing like the source when it
fails), obtains gamma from lineSearch on the curried objective with the
default parameters a = 1/5 and b = 3/5, updates beta to
beta - gamma * gd, stores the squared norm of gd, and increments k. -/
def trainLoop (data : List (Vec × ℚ)) (lam eps : ℚ) (fuel : ℕ) :
    ℕ → Vec → ℚ → ℕ → Option (Vec × ℚ × ℕ)
  | 0, beta, ns, k => some (beta, ns, k)
  | left + 1, beta, ns, k =>
    if ltNormSq eps ns then
      match gradient data beta lam, F data beta lam with
      | some gd, some _ =>
        match lineSearch (fun v => Fval data v lam) beta gd (1/5) (3/5) fuel with
        | some gamma =>
          trainLoop data lam eps fuel left (vsub beta (smul gamma gd))
            (normSq gd) (k + 1)
        | none => none
      | _, _ => none
    else some (beta, ns, k)

/-- Source train. The source body starts with beta = beta0, where beta0 is
not the parameter beta_0 but a module-level global (defined only by the
command-line entry point, as the zero vector sized from the first record);
the parameter beta_0 is never read. The embedding therefore takes the
global beta0 as an explicit first argument next to the (unused) parameter
beta_0. Before the loop the squared norm of gradient(data, beta0, lam) is
computed once, failing, like the source, on an empty dataset. -/
def train (beta0 : Vec) (data : List (Vec × ℚ)) (beta_0 : Vec) (lam : ℚ)
    (max_iter : ℕ) (eps : ℚ) (fuel : ℕ) : Option (Vec × ℚ × ℕ) :=
  match gradient data beta0 lam with
  | some g0 => trainLoop data lam eps fuel max_iter beta0 (normSq g0) 0
  | none => none

/- ---------- aggregation for the normal equations solver ---------- -/

/-- Source aggregate. The source computes ide = np.identity(50), n =
data.count(), x = data.keys().reduce(add) (the elementwise SUM of all
feature vectors, a length-d vector), y = data.values().reduce(add) (the sum
of the labels, a scalar), then first_term = (1/n * np.dot(x, x.transpose()))
+ lam * ide and second_term = 1/n * np.dot(x.transpose(), y). For a
one-dimensional numpy array x, np.dot(x, x.transpose()) is the scalar inner
product of the summed vector with itself, so first_term is that scalar
broadcast over the 50 x 50 matrix lam * ide; np.dot(x, y) with scalar y is
the scalar multiple y * x. The matrix is represented row-major as a list of
rows. Reducing an empty RDD fails, modelled by none. -/
def aggregate (data : List (Vec × ℚ)) (lam : ℚ) :
    Option (List (List ℚ) × Vec) :=
  match reduceVAdd (data.map Prod.fst), reduceAdd (data.map Prod.snd) with
  | some x, some y =>
    let n : ℚ := (data.length : ℚ)
    let s : ℚ := 1 / n * dot x x
    let first_term : List (List ℚ) :=
      (List.range 50).map (fun i =>
        (List.range 50).map (fun j => s + lam * (if i = j then 1 else 0)))
    let second_term : Vec := smul (1 / n) (smul y x)
    some (first_term, second_term)
  | _, _ => none

/-- The matrix the claim (and the aggregate docstring) describes:
A = (1/n) * the sum of the outer products of the feature vectors, plus
lam times the d x d identity, written entrywise. This definition follows
the words of the claim, for comparison against aggregate. -/
def aggregateClaimA (data : List (Vec × ℚ)) (lam : ℚ) (d : ℕ) :
    List (List ℚ) :=
  (List.range d).map (fun i =>
    (List.range d).map (fun j =>
      1 / (data.length : ℚ) *
          (data.map (fun r => r.1.getD i 0 * r.1.getD j 0)).sum +
        lam * (if i = j then 1 else 0)))

/-- The vector the claim (and the aggregate docstring) describes:
b = (1/n) * the sum of y_i * x_i, written entrywise. This definition
follows the words of the claim, for comparison against aggregate. -/
def aggregateClaimB (data : List (Vec × ℚ)) (d : ℕ) : Vec :=
  (List.range d).map (fun j =>
    1 / (data.length : ℚ) * (data.map (fun r => r.2 * r.1.getD j 0)).sum)

/- ---------- CSV parsing (readData) ---------- -/

/-- Digit test for the float parser: the characters 0 through 9. -/
def isDig (c : Char) : Bool := 48 ≤ c.toNat && c.toNat ≤ 57

/-- Numeric value of a digit character. -/
def digVal (c : Char) : ℕ := c.toNat - 48

/-- Natural number denoted by a most-significant-first digit string. -/
def chNat (l : List Char) : ℕ := l.foldl (fun a c => 10 * a + digVal c) 0

/-- Value of a mantissa: integer digit part plus fractional digit part. -/
def mantVal (ip fp : List Char) : ℚ :=
  (chNat ip : ℚ) + (chNat fp : ℚ) / 10 ^ fp.length

/-- Exponent of a Python float literal: optional sign, nonempty digits. -/
def parseExp (l : List Char) : Option ℤ :=
  match l with
  | [] => none
  | c :: r =>
    if c = '-' then
      if !r.isEmpty && r.all isDig then some (-(chNat r : ℤ)) else none
    else if c = '+' then
      if !r.isEmpty && r.all isDig then some (chNat r : ℤ) else none
    else if (c :: r).all isDig then some (chNat (c :: r) : ℤ) else none

/-- Unsigned Python float literal: digits, an optional decimal point with
further digits (at least one digit on one of the two sides), and an
optional exponent introduced by e or E. (The str forms inf and nan have no
rational value and a numeric literal with underscores is not modelled;
neither occurs in the files this program reads or writes.) -/
def parseUFloat (l : List Char) : Option ℚ :=
  let ip := l.takeWhile isDig
  match l.dropWhile isDig with
  | [] => if ip.isEmpty then none else some (chNat ip : ℚ)
  | c :: r2 =>
    if c = '.' then
      let fp := r2.takeWhile isDig
      if ip.isEmpty && fp.isEmpty then none
      else
        match r2.dropWhile isDig with
        | [] => some (mantVal ip fp)
        | e :: r4 =>
          if e = 'e' || e = 'E' then
            (parseExp r4).map (fun z => mantVal ip fp * 10 ^ z)
          else none
    else if c = 'e' || c = 'E' then
      if ip.isEmpty then none
      else (parseExp r2).map (fun z => (chNat ip : ℚ) * 10 ^ z)
    else none

/-- Python float(string) on a character list: optional sign, then an
unsigned float literal; float of the empty string raises (none). -/
def parseFloat (l : List Char) : Option ℚ :=
  match l with
  | [] => none
  | c :: r =>
    if c = '-' then (parseUFloat r).map (fun q => -q)
    else if c = '+' then parseUFloat r
    else parseUFloat (c :: r)

/-- Python str.split on a comma, over a character list. Splitting the
empty string yields one empty field, as in Python. -/
def splitComma : List Char → List (List Char)
  | [] => [[]]
  | c :: rest =>
    if c = ',' then [] :: splitComma rest
    else
      match splitComma rest with
      | [] => [[c]]
      | p :: ps => (c :: p) :: ps

/-- Sequential float parse of a list of fields, failing on the first field
float rejects (the ValueError raised inside the list comprehension of
readData aborts the whole record). -/
def parseAll : List (List Char) → Option (List ℚ)
  | [] => some []
  | w :: ws =>
    match parseFloat w, parseAll ws with
    | some v, some vs => some (v :: vs)
    | _, _ => none

/-- One line of readData after splitting on commas: words[:-1] parsed as
the feature vector, words[-1] parsed as the label. -/
def parseFields (words : List (List Char)) : Option (Vec × ℚ) :=
  match words.getLast? with
  | none => none
  | some last =>
    match parseAll words.dropLast, parseFloat last with
    | some xs, some y => some (xs, y)
    | _, _ => none

/-- One line of readData: split on commas, then parse the fields. -/
def parseLine (l : List Char) : Option (Vec × ℚ) := parseFields (splitComma l)

/-- Source readData over the lines of the input file: every line is mapped
through parseLine; a parse failure on any line fails the whole read (a
Spark action materializes the ValueError of any malformed line). -/
def readData : List (List Char) → Option (List (Vec × ℚ))
  | [] => some []
  | l :: ls =>
    match parseLine l, readData ls with
    | some r, some rs => some (r :: rs)
    | _, _ => none

/- ---------- vector file io (writeBeta and readBeta) ---------- -/

/-- Python str.join with a comma separator, over character lists. -/
def joinComma : List (List Char) → List Char
  | [] => []
  | [p] => p
  | p :: ps => p ++ ',' :: joinComma ps

/-- The whitespace set stripped by Python str.strip(). -/
def isPySpace (c : Char) : Bool :=
  c == ' ' || c == '\t' || c == '\n' || c == '\r' || c == '\x0b' || c == '\x0c'

/-- Python str.strip(): drop leading and trailing whitespace. -/
def pyStrip (s : List Char) : List Char :=
  ((s.dropWhile isPySpace).reverse.dropWhile isPySpace).reverse

/-- The character of a decimal digit. -/
def digitChar (d : ℕ) : Char := Char.ofNat (48 + d)

/-- Characters of a least-significant-first digit list, most significant
first. -/
def digitsToChars (L : List ℕ) : List Char := L.reverse.map digitChar

/-- Pad a least-significant-first digit list with high zeros to at least n
digits. -/
def padDigits (L : List ℕ) (n : ℕ) : List ℕ :=
  L ++ List.replicate (n - L.length) 0

/-- Python str of the float value q: an exact decimal rendering, as the
repr of a float is an exact determinant of its value. The value is scaled
by 10 ^ q.den (for any value with a terminating decimal expansion — as
every float has — this many decimal places always suffice), rendered as an
integer digit string, and split by a decimal point q.den places from the
right; a minus sign is prepended for negative values. -/
def ratToDecimal (q : ℚ) : List Char :=
  (if (q * 10 ^ q.den).num < 0 then ['-'] else []) ++
    digitsToChars
      ((padDigits (Nat.digits 10 (q * 10 ^ q.den).num.natAbs)
        (q.den + 1)).drop q.den) ++
    '.' :: digitsToChars
      ((padDigits (Nat.digits 10 (q * 10 ^ q.den).num.natAbs)
        (q.den + 1)).take q.den)

/-- Source writeBeta: the comma-join of the rendered entries of beta,
followed by a newline. -/
def writeBeta (beta : List ℚ) : List Char :=
  joinComma (beta.map ratToDecimal) ++ ['\n']

/-- Source readBeta: read the file content, strip it, split on commas, and
parse every field with float. -/
def readBeta (s : List Char) : Option (List ℚ) :=
  parseAll (splitComma (pyStrip s))

/- ---------- basic lemmas on the vector operations ---------- -/
theorem foldl_add_eq (t : List ℚ) (h : ℚ) : t.foldl (· + ·) h = h + t.sum := by
  induction t generalizing h with
  | nil => simp
  | cons a t ih => simp [List.foldl_cons, ih, List.sum_cons]; ring

theorem reduceAdd_eq_sum (l : List ℚ) (h : l ≠ []) : reduceAdd l = some l.sum := by
  cases l with
  | nil => exact absurd rfl h
  | cons a t => simp [reduceAdd, foldl_add_eq, List.sum_cons]

theorem dot_comm (u v : Vec) : dot u v = dot v u := by
  induction u generalizing v with
  | nil => cases v <;> simp [dot]
  | cons a u ih =>
    cases v with
    | nil => simp [dot]
    | cons b v =>
      simp only [dot, List.zipWith_cons_cons, List.sum_cons]
      have h := ih v
      simp only [dot] at h
      rw [h]
      ring

theorem dot_nil_right (u : Vec) : dot u [] = 0 := by
  cases u <;> simp [dot]

theorem dot_smul_left (c : ℚ) (u v : Vec) : dot (smul c u) v = c * dot u v := by
  induction u generalizing v with
  | nil => simp [dot, smul]
  | cons a u ih =>
    cases v with
    | nil => simp [dot, smul]
    | cons b v =>
      simp only [smul, List.map_cons, dot, List.zipWith_cons_cons, List.sum_cons]
      rw [show (List.zipWith (· * ·) (List.map (fun a => c * a) u) v).sum
            = dot (smul c u) v from rfl, ih v,
          show (List.zipWith (· * ·) u v).sum = dot u v from rfl]
      ring

theorem dot_vadd_left (u w v : Vec) (h : u.length = w.length) :
    dot (vadd u w) v = dot u v + dot w v := by
  induction u generalizing w v with
  | nil =>
    cases w with
    | nil => simp [dot, vadd]
    | cons b w => simp at h
  | cons a u ih =>
    cases w with
    | nil => simp at h
    | cons b w =>
      cases v with
      | nil => simp [dot_nil_right]
      | cons c v =>
        simp only [vadd, List.zipWith_cons_cons, dot, List.sum_cons]
        rw [show (List.zipWith (· * ·) (List.zipWith (· + ·) u w) v).sum
              = dot (vadd u w) v from rfl]
        rw [ih w v (by simpa using h)]
        simp only [dot]
        ring

theorem vadd_length (u v : Vec) (h : u.length = v.length) :
    (vadd u v).length = u.length := by
  simp [vadd, h]

theorem smul_length (c : ℚ) (v : Vec) : (smul c v).length = v.length := by
  simp [smul]

theorem vadd_getD (u v : Vec) (h : u.length = v.length) (j : ℕ) :
    (vadd u v).getD j 0 = u.getD j 0 + v.getD j 0 := by
  induction u generalizing v j with
  | nil =>
    cases v with
    | nil => simp [vadd]
    | cons b v => simp at h
  | cons a u ih =>
    cases v with
    | nil => simp at h
    | cons b v =>
      cases j with
      | zero => simp [vadd]
      | succ j => simpa [vadd] using ih v (by simpa using h) j

theorem smul_getD (c : ℚ) (v : Vec) (j : ℕ) :
    (smul c v).getD j 0 = c * v.getD j 0 := by
  induction v generalizing j with
  | nil => simp [smul]
  | cons a v ih =>
    cases j with
    | zero => simp [smul]
    | succ j => simpa [smul] using ih j

theorem sum_map_add {α : Type} (l : List α) (g h : α → ℚ) :
    (l.map (fun a => g a + h a)).sum = (l.map g).sum + (l.map h).sum := by
  induction l with
  | nil => simp
  | cons a l ih => simp [List.sum_cons, ih]; ring

theorem sum_map_mul_left {α : Type} (l : List α) (c : ℚ) (g : α → ℚ) :
    (l.map (fun a => c * g a)).sum = c * (l.map g).sum := by
  induction l with
  | nil => simp
  | cons a l ih => simp [List.sum_cons, ih]; ring

/-- The elements of a vector-valued Spark reduce with addition: the fold of
vadd over vectors of a common length d has length d, and its j-th entry is
the sum of the j-th entries. -/
theorem foldl_vadd_getD (d : ℕ) (l : List Vec) (acc : Vec)
    (hl : ∀ v ∈ l, v.length = d) (hacc : acc.length = d) :
    (l.foldl vadd acc).length = d ∧
      ∀ j, (l.foldl vadd acc).getD j 0 =
        acc.getD j 0 + (l.map (fun v => v.getD j 0)).sum := by
  induction l generalizing acc with
  | nil => simp [hacc]
  | cons v l ih =>
    have hv : v.length = d := hl v (List.mem_cons_self v l)
    have hlen : (vadd acc v).length = d := by
      rw [vadd_length acc v (by rw [hacc, hv])]; exact hacc
    obtain ⟨h1, h2⟩ := ih (vadd acc v)
      (fun w hw => hl w (List.mem_cons_of_mem v hw)) hlen
    refine ⟨h1, fun j => ?_⟩
    rw [List.foldl_cons, h2 j, vadd_getD acc v (by rw [hacc, hv]) j]
    simp [List.sum_cons]
    ring

/-- Inner product of a vector-valued Spark reduce against a fixed vector. -/
theorem dot_foldl_vadd (d : ℕ) (l : List Vec) (acc w : Vec)
    (hl : ∀ v ∈ l, v.length = d) (hacc : acc.length = d) :
    dot (l.foldl vadd acc) w = dot acc w + (l.map (fun v => dot v w)).sum := by
  induction l generalizing acc with
  | nil => simp
  | cons v l ih =>
    have hv : v.length = d := hl v (List.mem_cons_self v l)
    have hlen : (vadd acc v).length = d := by
      rw [vadd_length acc v (by rw [hacc, hv])]; exact hacc
    rw [List.foldl_cons, ih (vadd acc v)
        (fun u hu => hl u (List.mem_cons_of_mem v hu)) hlen,
      dot_vadd_left acc v w (by rw [hacc, hv])]
    simp [List.sum_cons]
    ring

/- ---------- the closed forms of F, gradient and test ---------- -/

/-- Closed form of F on a nonempty dataset. -/
theorem F_eq_some (data : List (Vec × ℚ)) (beta : Vec) (lam : ℚ)
    (h : data ≠ []) :
    F data beta lam =
      some (1 / (data.length : ℚ) *
          (data.map (fun r => (r.2 - dot beta r.1) ^ 2)).sum +
        lam * dot beta beta) := by
  have hmap : data.map (fun p => f p.1 p.2 beta) ≠ [] := by
    simpa using h
  rw [F, reduceAdd_eq_sum _ hmap]
  simp [f]

/-- Closed form of gradient on a nonempty dataset of common dimension d:
the result vector, its length, and each of its entries. -/
theorem gradient_eq_some (data : List (Vec × ℚ)) (beta : Vec) (lam : ℚ)
    (d : ℕ) (hne : data ≠ []) (hd : ∀ r ∈ data, r.1.length = d)
    (hb : beta.length = d) :
    ∃ g, gradient data beta lam = some g ∧ g.length = d ∧
      ∀ j, g.getD j 0 =
        1 / (data.length : ℚ) *
            (data.map (fun r => -2 * (r.2 - dot beta r.1) * r.1.getD j 0)).sum +
          2 * lam * beta.getD j 0 := by
  cases data with
  | nil => exact absurd rfl hne
  | cons r0 rest =>
    have hlen : ∀ p ∈ r0 :: rest, (localGradient p.1 p.2 beta).length = d := by
      intro p hp
      simp only [localGradient, smul_length]
      exact hd p hp
    obtain ⟨hSlen, hSgetD⟩ := foldl_vadd_getD d
      (rest.map (fun p => localGradient p.1 p.2 beta))
      (localGradient r0.1 r0.2 beta)
      (by intro v hv
          obtain ⟨p, hp, rfl⟩ := List.mem_map.mp hv
          exact hlen p (List.mem_cons_of_mem r0 hp))
      (hlen r0 (List.mem_cons_self r0 rest))
    refine ⟨vadd (smul (1 / (((r0 :: rest).length : ℕ) : ℚ))
          (List.foldl vadd (localGradient r0.1 r0.2 beta)
            (rest.map (fun p => localGradient p.1 p.2 beta))))
        (smul (2 * lam) beta), rfl, ?_, ?_⟩
    · rw [vadd_length]
      · rw [smul_length]; exact hSlen
      · rw [smul_length, smul_length, hSlen, hb]
    · intro j
      rw [vadd_getD _ _ (by rw [smul_length, smul_length, hSlen, hb]) j,
        smul_getD, smul_getD, hSgetD j]
      have hentry : ∀ p : Vec × ℚ,
          (localGradient p.1 p.2 beta).getD j 0 =
            -2 * (p.2 - dot beta p.1) * p.1.getD j 0 := by
        intro p
        simp only [localGradient, smul_getD]
      rw [hentry r0]
      simp only [List.map_map, Function.comp_def]
      have hrest : (rest.map (fun p => (localGradient p.1 p.2 beta).getD j 0)).sum
          = (rest.map (fun r => -2 * (r.2 - dot beta r.1) * r.1.getD j 0)).sum := by
        congr 1
        exact List.map_congr_left (fun p _ => hentry p)
      rw [hrest]
      simp [List.map_cons, List.sum_cons]

/-- C6: on every nonempty dataset of common dimension d, gradient returns
the vector g whose j-th entry is 1/n times the sum over the records of
-2 * (y - <beta,x>) * x_j, plus 2 * lam * beta_j; and g is exactly the
gradient of beta -> F(data, beta, lam): the first-order term of F at
beta + v is dot g v, the remainder being exactly the second-order
quadratic 1/n * the sum of <v,x>^2 plus lam * <v,v> (which pins g down as
the unique gradient of this quadratic objective). -/
theorem gradient_formula (data : List (Vec × ℚ)) (beta : Vec) (lam : ℚ)
    (d : ℕ) (hne : data ≠ []) (hd : ∀ r ∈ data, r.1.length = d)
    (hb : beta.length = d) :
    ∃ g q, gradient data beta lam = some g ∧ F data beta lam = some q ∧
      g.length = d ∧
      (∀ j, g.getD j 0 =
        1 / (data.length : ℚ) *
            (data.map (fun r => -2 * (r.2 - dot beta r.1) * r.1.getD j 0)).sum +
          2 * lam * beta.getD j 0) ∧
      (∀ v : Vec, v.length = d →
        F data (vadd beta v) lam =
          some (q + dot g v +
            (1 / (data.length : ℚ) *
                (data.map (fun r => dot v r.1 ^ 2)).sum +
              lam * dot v v))) := by
  obtain ⟨g, hg, hglen, hgetD⟩ := gradient_eq_some data beta lam d hne hd hb
  refine ⟨g, _, hg, F_eq_some data beta lam hne, hglen, hgetD, ?_⟩
  intro v hv
  cases data with
  | nil => exact absurd rfl hne
  | cons r0 rest =>
    have hbv : beta.length = v.length := by rw [hb, hv]
    -- the explicit shape of g
    have hgex : g = vadd
        (smul (1 / (((r0 :: rest).length : ℕ) : ℚ))
          (List.foldl vadd (localGradient r0.1 r0.2 beta)
            (rest.map (fun p => localGradient p.1 p.2 beta))))
        (smul (2 * lam) beta) := by
      have h0 : gradient (r0 :: rest) beta lam = some (vadd
          (smul (1 / (((r0 :: rest).length : ℕ) : ℚ))
            (List.foldl vadd (localGradient r0.1 r0.2 beta)
              (rest.map (fun p => localGradient p.1 p.2 beta))))
          (smul (2 * lam) beta)) := rfl
      rw [hg] at h0
      exact Option.some_injective _ h0
    have hlens : ∀ u ∈ rest.map (fun p => localGradient p.1 p.2 beta),
        u.length = d := by
      intro u hu
      obtain ⟨p, hp, rfl⟩ := List.mem_map.mp hu
      simp only [localGradient, smul_length]
      exact hd p (List.mem_cons_of_mem r0 hp)
    have hlenr0 : (localGradient r0.1 r0.2 beta).length = d := by
      simp only [localGradient, smul_length]
      exact hd r0 (List.mem_cons_self r0 rest)
    have hSlen : (List.foldl vadd (localGradient r0.1 r0.2 beta)
        (rest.map (fun p => localGradient p.1 p.2 beta))).length = d :=
      (foldl_vadd_getD d _ _ hlens hlenr0).1
    -- the inner product of g against the displacement v
    have hgv : dot g v =
        1 / (((r0 :: rest).length : ℕ) : ℚ) *
            ((r0 :: rest).map
              (fun p => -2 * (p.2 - dot beta p.1) * dot p.1 v)).sum +
          2 * lam * dot beta v := by
      rw [hgex, dot_vadd_left _ _ v (by rw [smul_length, smul_length, hSlen, hb]),
        dot_smul_left, dot_smul_left,
        dot_foldl_vadd d _ _ v hlens hlenr0]
      have hlgdot : ∀ p : Vec × ℚ,
          dot (localGradient p.1 p.2 beta) v =
            -2 * (p.2 - dot beta p.1) * dot p.1 v := by
        intro p
        rw [localGradient, dot_smul_left]
        try ring
      rw [hlgdot r0, List.map_map]
      have : (rest.map ((fun u => dot u v) ∘ fun p => localGradient p.1 p.2 beta))
          = rest.map (fun p => -2 * (p.2 - dot beta p.1) * dot p.1 v) :=
        List.map_congr_left (fun p _ => hlgdot p)
      rw [this]
      simp only [List.map_cons, List.sum_cons]
    -- expansion of the squared euclidean norm of beta + v
    have hββ : dot (vadd beta v) (vadd beta v) =
        dot beta beta + 2 * dot beta v + dot v v := by
      rw [dot_vadd_left beta v _ hbv, dot_comm beta (vadd beta v),
        dot_vadd_left beta v beta hbv, dot_comm v (vadd beta v),
        dot_vadd_left beta v v hbv, dot_comm v beta]
      try ring
    -- expansion of the per-record squared error at beta + v
    have hrec : ∀ r : Vec × ℚ,
        (r.2 - dot (vadd beta v) r.1) ^ 2 =
          (r.2 - dot beta r.1) ^ 2 +
            (-2 * (r.2 - dot beta r.1) * dot r.1 v + dot v r.1 ^ 2) := by
      intro r
      rw [dot_vadd_left beta v r.1 hbv, dot_comm r.1 v]
      ring
    rw [F_eq_some (r0 :: rest) (vadd beta v) lam hne]
    congr 1
    rw [show (r0 :: rest).map (fun r => (r.2 - dot (vadd beta v) r.1) ^ 2)
          = (r0 :: rest).map (fun r => (r.2 - dot beta r.1) ^ 2 +
              (-2 * (r.2 - dot beta r.1) * dot r.1 v + dot v r.1 ^ 2))
        from List.map_congr_left (fun r _ => hrec r),
      sum_map_add, sum_map_add, hββ, hgv]
    ring

/-- C6 witness: the closed form at a concrete one-record dataset. -/
theorem gradient_formula_witness :
    ∃ g q, gradient [([1], 1)] [0] 0 = some g ∧ F [([1], 1)] [0] 0 = some q ∧
      g.length = 1 ∧
      (∀ j, g.getD j 0 =
        1 / (([([1], 1)] : List (Vec × ℚ)).length : ℚ) *
            (([([1], 1)] : List (Vec × ℚ)).map
              (fun r => -2 * (r.2 - dot [0] r.1) * r.1.getD j 0)).sum +
          2 * 0 * List.getD [0] j 0) ∧
      (∀ v : Vec, v.length = 1 →
        F [([1], 1)] (vadd [0] v) 0 =
          some (q + dot g v +
            (1 / (([([1], 1)] : List (Vec × ℚ)).length : ℚ) *
                (([([1], 1)] : List (Vec × ℚ)).map
                  (fun r => dot v r.1 ^ 2)).sum +
              0 * dot v v))) :=
  gradient_formula [([1], 1)] [0] 0 1 (by decide) (by decide) (by decide)

/-- C5: on every nonempty dataset of n records, F(data, beta, lam) is the
mean of the per-record squared errors (the distributed sum divided by the
record count) plus the locally evaluated regularization term
lam * the squared euclidean norm of beta (dot beta beta). -/
theorem F_formula (data : List (Vec × ℚ)) (beta : Vec) (lam : ℚ)
    (h : data ≠ []) :
    F data beta lam =
      some (1 / (data.length : ℚ) *
          (data.map (fun r => (r.2 - dot beta r.1) ^ 2)).sum +
        lam * dot beta beta) :=
  F_eq_some data beta lam h

/-- C5 witness: the closed form evaluated on a concrete dataset. -/
theorem F_formula_witness :
    F [([1, 2], 5)] [1, 1] 2 =
      some (1 / (([([1, 2], 5)] : List (Vec × ℚ)).length : ℚ) *
          (([([1, 2], 5)] : List (Vec × ℚ)).map
            (fun r => (r.2 - dot [1, 1] r.1) ^ 2)).sum +
        2 * dot [1, 1] [1, 1]) :=
  F_formula [([1, 2], 5)] [1, 1] 2 (by decide)

/-- C2: on every nonempty dataset, test(data, beta) equals F(data, beta, 1.0)
(test delegates to F, whose lam parameter defaults to 1.0 and is never
overridden), i.e. the mean squared error plus the penalty
1.0 * the squared euclidean norm of beta. -/
theorem test_eq_F_default (data : List (Vec × ℚ)) (beta : Vec)
    (h : data ≠ []) :
    test data beta = F data beta 1 ∧
      test data beta =
        some (1 / (data.length : ℚ) *
            (data.map (fun r => (r.2 - dot beta r.1) ^ 2)).sum +
          1 * dot beta beta) :=
  ⟨rfl, F_eq_some data beta 1 h⟩

/-- C2 witness: test on a concrete dataset equals F at lam = 1 and carries
the regularization penalty. -/
theorem test_eq_F_default_witness :
    test [([1, 2], 5)] [2, 1] = F [([1, 2], 5)] [2, 1] 1 ∧
      test [([1, 2], 5)] [2, 1] =
        some (1 / (([([1, 2], 5)] : List (Vec × ℚ)).length : ℚ) *
            (([([1, 2], 5)] : List (Vec × ℚ)).map
              (fun r => (r.2 - dot [2, 1] r.1) ^ 2)).sum +
          1 * dot [2, 1] [2, 1]) :=
  test_eq_F_default [([1, 2], 5)] [2, 1] (by decide)

/-- C10: F, gradient and test all fail (none, modelling the Python
exception) on the empty dataset, and on every nonempty dataset of common
dimension d they return a value of the expected shape: a scalar for F and
test, a vector of length d for gradient. -/
theorem objective_requires_nonempty (beta : Vec) (lam : ℚ) (d : ℕ)
    (data : List (Vec × ℚ)) (hne : data ≠ [])
    (hd : ∀ r ∈ data, r.1.length = d) (hb : beta.length = d) :
    (F [] beta lam = none ∧ gradient [] beta lam = none ∧
        test [] beta = none) ∧
      (∃ q, F data beta lam = some q) ∧
      (∃ q, test data beta = some q) ∧
      (∃ g, gradient data beta lam = some g ∧ g.length = d) := by
  refine ⟨⟨rfl, rfl, rfl⟩, ?_, ?_, ?_⟩
  · exact ⟨_, F_eq_some data beta lam hne⟩
  · exact ⟨_, F_eq_some data beta 1 hne⟩
  · obtain ⟨g, hg, hlen, _⟩ := gradient_eq_some data beta lam d hne hd hb
    exact ⟨g, hg, hlen⟩

/-- C10 witness: concrete empty/nonempty evaluations. -/
theorem objective_requires_nonempty_witness :
    (F [] [1, 2] 3 = none ∧ gradient [] [1, 2] 3 = none ∧
        test [] [1, 2] = none) ∧
      (∃ q, F [([1, 0], 4)] [1, 2] 3 = some q) ∧
      (∃ q, test [([1, 0], 4)] [1, 2] = some q) ∧
      (∃ g, gradient [([1, 0], 4)] [1, 2] 3 = some g ∧ g.length = 2) :=
  objective_requires_nonempty [1, 2] 3 2 [([1, 0], 4)] (by decide)
    (by decide) (by decide)

/- ---------- line search ---------- -/
theorem normSq_nonneg (v : Vec) : 0 ≤ normSq v := by
  induction v with
  | nil => simp [normSq, dot]
  | cons a v ih =>
    simp only [normSq, dot, List.zipWith_cons_cons, List.sum_cons] at *
    nlinarith

/-- Justification of the ltNormSq embedding: over the reals, for s ≥ 0 (as
every squared norm is), eps < sqrt s holds iff eps < 0 or eps ^ 2 < s. -/
theorem ltNormSq_iff_lt_sqrt (eps s : ℚ) (hs : 0 ≤ s) :
    ltNormSq eps s = true ↔ (eps : ℝ) < Real.sqrt (s : ℝ) := by
  simp only [ltNormSq, Bool.or_eq_true, decide_eq_true_eq]
  constructor
  · rintro (h | h)
    · calc (eps : ℝ) < 0 := by exact_mod_cast h
        _ ≤ Real.sqrt (s : ℝ) := Real.sqrt_nonneg _
    · rcases lt_or_le eps 0 with he | he
      · calc (eps : ℝ) < 0 := by exact_mod_cast he
          _ ≤ Real.sqrt (s : ℝ) := Real.sqrt_nonneg _
      · refine (Real.lt_sqrt ?_).mpr ?_
        · exact_mod_cast he
        · exact_mod_cast h
  · intro h
    rcases lt_or_le eps 0 with he | he
    · exact Or.inl he
    · refine Or.inr ?_
      have : (eps : ℝ) ^ 2 < (s : ℝ) :=
        (Real.lt_sqrt (by exact_mod_cast he)).mp h
      exact_mod_cast this

theorem lineSearchGo_of_armijo (fn : Vec → ℚ) (x g : Vec) (a b : ℚ) :
    ∀ (n : ℕ) (t : ℚ), armijoAt fn x g a (t * b ^ n) →
      ∃ s, lineSearchGo fn x g a b (n + 1) t = some s ∧ armijoAt fn x g a s := by
  intro n
  induction n with
  | zero =>
    intro t ht
    rw [pow_zero, mul_one] at ht
    refine ⟨t, ?_, ht⟩
    simp only [lineSearchGo]
    rw [if_neg (not_lt.mpr ht)]
  | succ n ih =>
    intro t ht
    by_cases h : armijoAt fn x g a t
    · refine ⟨t, ?_, h⟩
      simp only [lineSearchGo]
      rw [if_neg (not_lt.mpr h)]
    · have hcond : fn x - a * t * dot g g < fn (vsub x (smul t g)) :=
        not_le.mp h
      obtain ⟨s, hs, hars⟩ := ih (b * t)
        (by rw [show b * t * b ^ n = t * b ^ (n + 1) by ring]; exact ht)
      refine ⟨s, ?_, hars⟩
      simp only [lineSearchGo]
      rw [if_pos hcond]
      exact hs

theorem lineSearchGo_const_none (x g : Vec) (a b : ℚ)
    (hg : 0 < dot g g) (ha : 0 < a) (hb : 0 < b) :
    ∀ (fuel : ℕ) (t : ℚ), 0 < t →
      lineSearchGo (fun _ => 1) x g a b fuel t = none := by
  intro fuel
  induction fuel with
  | zero => intro t _; rfl
  | succ n ih =>
    intro t ht
    have hcond : (1 : ℚ) - a * t * dot g g < 1 := by
      nlinarith [mul_pos (mul_pos ha ht) hg]
    simp only [lineSearchGo]
    rw [if_pos hcond]
    exact ih (b * t) (by positivity)

/-- C7: whenever some step size of the form b ^ k satisfies the Armijo
condition, the backtracking loop of lineSearch terminates (fuel k + 1
already suffices) and returns a step size satisfying the Armijo condition.
No iteration cap bounds the loop: without such a step size the loop runs
forever, shown by the constant objective (with dot g g > 0), on which the
loop yields none at every fuel. -/
theorem lineSearch_armijo (fn : Vec → ℚ) (x g : Vec) (a b : ℚ) (k : ℕ)
    (ha : 0 < a) (ha1 : a < 1) (hb : 0 < b) (hb1 : b < 1)
    (hk : armijoAt fn x g a (b ^ k)) :
    (∃ t, lineSearch fn x g a b (k + 1) = some t ∧ armijoAt fn x g a t) ∧
      (0 < dot g g →
        ∀ fuel, lineSearch (fun _ => 1) x g a b fuel = none) := by
  constructor
  · exact lineSearchGo_of_armijo fn x g a b k 1 (by rwa [one_mul])
  · intro hg fuel
    exact lineSearchGo_const_none x g a b hg ha hb fuel 1 one_pos

/-- C7 witness: a concrete quadratic objective on which the Armijo
condition holds already at b ^ 0 = 1, and the concrete divergent constant
objective. -/
theorem lineSearch_armijo_witness :
    (∃ t, lineSearch (fun v => dot v v) [3] [1] (1/5) (1/2) 1 = some t ∧
        armijoAt (fun v => dot v v) [3] [1] (1/5) t) ∧
      (0 < dot [1] [1] →
        ∀ fuel, lineSearch (fun _ => 1) [3] [1] (1/5) (1/2) fuel = none) :=
  lineSearch_armijo (fun v => dot v v) [3] [1] (1/5) (1/2) 0
    (by norm_num) (by norm_num) (by norm_num) (by norm_num)
    (by norm_num [armijoAt, vsub, smul, dot])

/-- C3: the convergence test of train is one step behind. At entry the
stored quantity the first guard tests is the norm of the gradient at the
start vector. A loop iteration entered at state (beta, ns, k), where the
gradient at beta is gd, steps to the state whose stored norm is that of gd,
the very gradient used to produce the updated beta; hence the next guard
test re-tests the norm of the gradient of the previous iteration, one step
behind the newest gradient, and when the guard fails the returned gradNorm
is that same stale stored norm. Norms are represented by their squares
throughout (see ltNormSq and ltNormSq_iff_lt_sqrt). -/
theorem train_convergence_one_step_behind (data : List (Vec × ℚ))
    (lam eps : ℚ) (fuel max_iter left k : ℕ) (beta beta_0 gd : Vec)
    (m gamma ns ns2 : ℚ)
    (hg : gradient data beta lam = some gd)
    (hF : F data beta lam = some m)
    (hls : lineSearch (fun v => Fval data v lam) beta gd (1/5) (3/5) fuel =
      some gamma)
    (hon : ltNormSq eps ns = true)
    (hoff : ltNormSq eps ns2 = false) :
    train beta data beta_0 lam max_iter eps fuel =
        trainLoop data lam eps fuel max_iter beta (normSq gd) 0 ∧
      trainLoop data lam eps fuel (left + 1) beta ns k =
        trainLoop data lam eps fuel left (vsub beta (smul gamma gd))
          (normSq gd) (k + 1) ∧
      trainLoop data lam eps fuel (left + 1) beta ns2 k = some (beta, ns2, k) := by
  refine ⟨?_, ?_, ?_⟩
  · simp only [train, hg]
  · simp only [trainLoop, hon, hg, hF, hls, if_true]
  · simp only [trainLoop, hoff, Bool.false_eq_true, if_false]

/-- C3 witness: the three equations at a concrete one-record dataset where
the line search returns 3/5 after one backtracking step. -/
theorem train_convergence_one_step_behind_witness :
    train [0] [([1], 1)] [0] 0 3 (1/2) 2 =
        trainLoop [([1], 1)] 0 (1/2) 2 3 [0] (normSq [-2]) 0 ∧
      trainLoop [([1], 1)] 0 (1/2) 2 (1 + 1) [0] 1 0 =
        trainLoop [([1], 1)] 0 (1/2) 2 1 (vsub [0] (smul (3/5) [-2]))
          (normSq [-2]) (0 + 1) ∧
      trainLoop [([1], 1)] 0 (1/2) 2 (1 + 1) [0] (1/8) 0 = some ([0], 1/8, 0) :=
  train_convergence_one_step_behind [([1], 1)] 0 (1/2) 2 3 1 0 [0] [0] [-2]
    1 (3/5) 1 (1/8)
    (by norm_num [gradient, reduceVAdd, localGradient, smul, vadd, dot])
    (by norm_num [F, reduceAdd, f, dot])
    (by norm_num [lineSearch, lineSearchGo, Fval, F, reduceAdd, f, dot, vsub,
      smul])
    (by norm_num [ltNormSq])
    (by norm_num [ltNormSq])

/-- C4 (recording the code bug): with lam = 0 and max_iter = 0, train does
return k = 0 and an unchanged beta, but the unchanged vector is the module
global beta0, not the caller-supplied parameter beta_0: here the global is
[0], the caller passes beta_0 = [1], and the returned beta is [0], not [1]
(the returned 4 is the squared norm of the gradient at [0]). -/
theorem train_returns_global_not_param :
    train [0] [([1], 1)] [1] 0 0 (1/100) 5 = some ([0], 4, 0) ∧
      ([0] : Vec) ≠ [1] := by
  have hg : gradient [([1], 1)] [0] 0 = some [-2] := by
    norm_num [gradient, reduceVAdd, localGradient, smul, vadd, dot]
  constructor
  · simp only [train, hg, trainLoop]
    norm_num [normSq, dot]
  · norm_num

/-- C1 (recording the code bug): on the dataset with records ([1,0], 1) and
([0,1], 1) and lam = 0, aggregate sums the feature vectors before taking
any product, so it returns b = (1/2) * (1+1) * [1,1] = [1,1] while the
claimed formula gives (1/2) * (1*[1,0] + 1*[0,1]) = [1/2, 1/2]; its matrix
is 50 x 50 (the hardcoded np.identity(50)) with top-left entry
(1/2) * <[1,1],[1,1]> = 1, while the claimed matrix is the 2 x 2 matrix
(1/2) * I with top-left entry 1/2. -/
theorem aggregate_failing_eval :
    (aggregate [([1, 0], 1), ([0, 1], 1)] 0).map Prod.snd = some [1, 1] ∧
      (aggregate [([1, 0], 1), ([0, 1], 1)] 0).map
          (fun p => p.1.length) = some 50 ∧
      (aggregate [([1, 0], 1), ([0, 1], 1)] 0).map
          (fun p => (p.1.getD 0 []).getD 0 0) = some 1 ∧
      aggregateClaimB [([1, 0], 1), ([0, 1], 1)] 2 = [1/2, 1/2] ∧
      aggregateClaimA [([1, 0], 1), ([0, 1], 1)] 0 2 =
        [[1/2, 0], [0, 1/2]] ∧
      ([1, 1] : Vec) ≠ [1/2, 1/2] ∧ (1 : ℚ) ≠ 1/2 := by
  refine ⟨?_, ?_, ?_, ?_, ?_, ?_, ?_⟩
  · norm_num [aggregate, reduceVAdd, reduceAdd, vadd, smul, dot]
  · norm_num [aggregate, reduceVAdd, reduceAdd, vadd, smul, dot]
  · norm_num [aggregate, reduceVAdd, reduceAdd, vadd, smul, dot]
  · norm_num [aggregateClaimB, List.range_succ]
  · norm_num [aggregateClaimA, List.range_succ]
  · norm_num
  · norm_num

theorem parseAll_eq_none (l : List (List Char)) (w : List Char)
    (hw : w ∈ l) (hbad : parseFloat w = none) : parseAll l = none := by
  induction l with
  | nil => cases hw
  | cons a l ih =>
    rcases List.mem_cons.mp hw with rfl | hmem
    · simp [parseAll, hbad]
    · cases h : parseFloat a <;> simp [parseAll, h, ih hmem]

/-- C8 counterexample: the line 5.0 has a single comma-separated field, so
by the claim readData must fail on it with a parse error; instead readData
accepts it and yields the record with an empty feature vector and label 5. -/
theorem readData_single_field_record :
    readData [['5', '.', '0']] = some [([], 5)] := by
  have c5 : chNat ['5'] = 5 := by decide
  have c0 : chNat ['0'] = 0 := by decide
  have hf : parseFloat ['5', '.', '0'] = some (mantVal ['5'] ['0']) := by rfl
  have hval : mantVal ['5'] ['0'] = 5 := by
    rw [mantVal, c5, c0]
    norm_num
  have hsplit : splitComma ['5', '.', '0'] = [['5', '.', '0']] := by decide
  simp [readData, parseLine, hsplit, parseFields, parseAll, hf, hval]

/-- C8 (amended): a line one of whose comma-separated fields float rejects
(in particular a non-numeric field) yields no record at all, but a line
with a single field is not rejected for having too few fields: when its
sole field is numeric it becomes a record with an empty feature vector and
that field as the label. -/
theorem malformed_line_yields_no_record (words : List (List Char))
    (w : List Char) (hw : w ∈ words) (hbad : parseFloat w = none)
    (w2 : List Char) (v : ℚ) (hv : parseFloat w2 = some v) :
    parseFields words = none ∧ parseFields [w2] = some ([], v) := by
  constructor
  · have hne : words ≠ [] := List.ne_nil_of_mem hw
    rw [parseFields, List.getLast?_eq_getLast words hne]
    have hsplitw := List.dropLast_append_getLast hne
    rcases List.mem_append.mp (by rw [hsplitw]; exact hw) with hmem | hlastmem
    · rw [parseAll_eq_none words.dropLast w hmem hbad]
    · have hwlast : w = words.getLast hne := by
        simpa using hlastmem
      cases h : parseAll words.dropLast <;>
        simp [h, ← hwlast, hbad]
  · simp [parseFields, parseAll, hv]

/-- C8 amended witness: the field a is rejected, so the line a,1 yields no
record; the single-field line 2 yields the record with empty features. -/
theorem malformed_line_yields_no_record_witness :
    parseFields [['a'], ['1']] = none ∧
      parseFields [['2']] = some ([], 2) :=
  malformed_line_yields_no_record [['a'], ['1']] ['a'] (by decide) (by rfl)
    ['2'] 2 (by decide)

/- ---------- round-trip lemmas ---------- -/
theorem digitChar_facts : ∀ d : ℕ, d < 10 →
    isDig (digitChar d) = true ∧ digVal (digitChar d) = d ∧
      digitChar d ≠ ',' ∧ isPySpace (digitChar d) = false := by decide

theorem takeWhile_middle (p : Char → Bool) (X : List Char) (y : Char)
    (Z : List Char) (hX : ∀ c ∈ X, p c = true) (hy : p y = false) :
    (X ++ y :: Z).takeWhile p = X ∧ (X ++ y :: Z).dropWhile p = y :: Z := by
  induction X with
  | nil => simp [List.takeWhile_cons, List.dropWhile_cons, hy]
  | cons a X ih =>
    have ha : p a = true := hX a (List.mem_cons_self a X)
    have h2 := ih (fun c hc => hX c (List.mem_cons_of_mem a hc))
    simp [List.takeWhile_cons, List.dropWhile_cons, ha, h2.1, h2.2]

theorem takeWhile_all (p : Char → Bool) (X : List Char)
    (hX : ∀ c ∈ X, p c = true) :
    X.takeWhile p = X ∧ X.dropWhile p = [] := by
  induction X with
  | nil => simp
  | cons a X ih =>
    have ha : p a = true := hX a (List.mem_cons_self a X)
    have h2 := ih (fun c hc => hX c (List.mem_cons_of_mem a hc))
    simp [List.takeWhile_cons, List.dropWhile_cons, ha, h2.1, h2.2]

theorem dropWhile_all_false (p : Char → Bool) (l : List Char)
    (h : ∀ c ∈ l, p c = false) : l.dropWhile p = l := by
  cases l with
  | nil => rfl
  | cons a l => simp [List.dropWhile_cons, h a (List.mem_cons_self a l)]

theorem pyStrip_append_newline (X : List Char) (hne : X ≠ [])
    (h : ∀ c ∈ X, isPySpace c = false) : pyStrip (X ++ ['\n']) = X := by
  obtain ⟨x0, X2, rfl⟩ := List.exists_cons_of_ne_nil hne
  have h0 : isPySpace x0 = false := h x0 (List.mem_cons_self x0 X2)
  have hnl : isPySpace '\n' = true := by decide
  have hstep1 : List.dropWhile isPySpace (x0 :: X2 ++ ['\n'])
      = x0 :: X2 ++ ['\n'] := by
    rw [List.cons_append, List.dropWhile_cons, h0]
    simp
  rw [pyStrip, hstep1, List.reverse_append,
    show (['\n'] : List Char).reverse = ['\n'] from rfl,
    List.singleton_append, List.dropWhile_cons, hnl]
  simp only [if_true]
  rw [dropWhile_all_false isPySpace (x0 :: X2).reverse
    (fun c hc => h c (List.mem_reverse.mp hc))]
  exact List.reverse_reverse _

theorem chNat_append_singleton (X : List Char) (c : Char) :
    chNat (X ++ [c]) = 10 * chNat X + digVal c := by
  simp [chNat, List.foldl_append]

theorem digitsToChars_cons (d : ℕ) (L : List ℕ) :
    digitsToChars (d :: L) = digitsToChars L ++ [digitChar d] := by
  simp [digitsToChars, List.reverse_cons]

theorem chNat_digitsToChars (L : List ℕ) (h : ∀ d ∈ L, d < 10) :
    chNat (digitsToChars L) = Nat.ofDigits 10 L := by
  induction L with
  | nil => simp [digitsToChars, chNat, Nat.ofDigits_nil]
  | cons d L ih =>
    rw [digitsToChars_cons, chNat_append_singleton,
      ih (fun e he => h e (List.mem_cons_of_mem d he)),
      (digitChar_facts d (h d (List.mem_cons_self d L))).2.1,
      Nat.ofDigits_cons]
    ring

theorem ofDigits_replicate_zero (m : ℕ) :
    Nat.ofDigits 10 (List.replicate m 0) = 0 := by
  induction m with
  | zero => simp
  | succ m ih => simp [List.replicate_succ, Nat.ofDigits_cons, ih]

theorem ofDigits_padDigits (L : List ℕ) (n : ℕ) :
    Nat.ofDigits 10 (padDigits L n) = Nat.ofDigits 10 L := by
  rw [padDigits, Nat.ofDigits_append, ofDigits_replicate_zero]
  simp

theorem padDigits_length (L : List ℕ) (n : ℕ) :
    n ≤ (padDigits L n).length := by
  simp only [padDigits, List.length_append, List.length_replicate]
  omega

theorem padDigits_mem_lt (a n d : ℕ)
    (hd : d ∈ padDigits (Nat.digits 10 a) n) : d < 10 := by
  rcases List.mem_append.mp hd with h | h
  · exact Nat.digits_lt_base (by norm_num) h
  · rw [List.eq_of_mem_replicate h]
    norm_num

/-- Decomposition of the rendered decimal string: an optional sign, a
nonempty integer digit block, a decimal point, and q.den fractional
digits; the two blocks reassemble to the absolute value of the scaled
numerator. -/
theorem ratToDecimal_struct (q : ℚ) :
    ∃ (s : List Char) (A B : List ℕ),
      ratToDecimal q = s ++ digitsToChars A ++ '.' :: digitsToChars B ∧
      ((s = [] ∧ 0 ≤ (q * 10 ^ q.den).num) ∨
        (s = ['-'] ∧ (q * 10 ^ q.den).num < 0)) ∧
      A ≠ [] ∧ (∀ d ∈ A, d < 10) ∧ (∀ d ∈ B, d < 10) ∧ B.length = q.den ∧
      Nat.ofDigits 10 B + 10 ^ q.den * Nat.ofDigits 10 A =
        (q * 10 ^ q.den).num.natAbs := by
  refine ⟨if (q * 10 ^ q.den).num < 0 then ['-'] else [],
    (padDigits (Nat.digits 10 (q * 10 ^ q.den).num.natAbs)
      (q.den + 1)).drop q.den,
    (padDigits (Nat.digits 10 (q * 10 ^ q.den).num.natAbs)
      (q.den + 1)).take q.den, rfl, ?_, ?_, ?_, ?_, ?_, ?_⟩
  · split_ifs with h
    · exact Or.inr ⟨rfl, h⟩
    · exact Or.inl ⟨rfl, not_lt.mp h⟩
  · have hlen := padDigits_length
      (Nat.digits 10 (q * 10 ^ q.den).num.natAbs) (q.den + 1)
    have hpos : 0 < ((padDigits (Nat.digits 10 (q * 10 ^ q.den).num.natAbs)
        (q.den + 1)).drop q.den).length := by
      rw [List.length_drop]
      omega
    exact List.length_pos.mp hpos
  · exact fun d hd => padDigits_mem_lt _ _ d (List.mem_of_mem_drop hd)
  · exact fun d hd => padDigits_mem_lt _ _ d (List.mem_of_mem_take hd)
  · have hlen := padDigits_length
      (Nat.digits 10 (q * 10 ^ q.den).num.natAbs) (q.den + 1)
    rw [List.length_take]
    omega
  · have hlen := padDigits_length
      (Nat.digits 10 (q * 10 ^ q.den).num.natAbs) (q.den + 1)
    have htk : ((padDigits (Nat.digits 10 (q * 10 ^ q.den).num.natAbs)
        (q.den + 1)).take q.den).length = q.den := by
      rw [List.length_take]
      omega
    calc Nat.ofDigits 10 ((padDigits (Nat.digits 10
            (q * 10 ^ q.den).num.natAbs) (q.den + 1)).take q.den) +
          10 ^ q.den * Nat.ofDigits 10 ((padDigits (Nat.digits 10
            (q * 10 ^ q.den).num.natAbs) (q.den + 1)).drop q.den)
        = Nat.ofDigits 10 ((padDigits (Nat.digits 10
            (q * 10 ^ q.den).num.natAbs) (q.den + 1)).take q.den ++
          (padDigits (Nat.digits 10
            (q * 10 ^ q.den).num.natAbs) (q.den + 1)).drop q.den) := by
          rw [Nat.ofDigits_append, htk]
      _ = (q * 10 ^ q.den).num.natAbs := by
          rw [List.take_append_drop, ofDigits_padDigits, Nat.ofDigits_digits]

/-- Evaluation of the unsigned float parser on any string that splits at
the decimal point into a nonempty digit block and a digit block. -/
theorem parseUFloat_spec (l I R FP : List Char)
    (h1 : l.takeWhile isDig = I) (h2 : l.dropWhile isDig = '.' :: R)
    (h3 : R.takeWhile isDig = FP) (h4 : R.dropWhile isDig = [])
    (h5 : I.isEmpty = false) :
    parseUFloat l = some (mantVal I FP) := by
  simp [parseUFloat, h1, h2, h3, h4, h5]

/-- Evaluation of the unsigned float parser on a rendered body: an integer
digit block, a point, and a fractional digit block. -/
theorem parseUFloat_render (A B : List ℕ) (hA : ∀ d ∈ A, d < 10)
    (hB : ∀ d ∈ B, d < 10) (hAne : A ≠ []) :
    parseUFloat (digitsToChars A ++ '.' :: digitsToChars B) =
      some ((Nat.ofDigits 10 A : ℚ) +
        (Nat.ofDigits 10 B : ℚ) / 10 ^ B.length) := by
  have hAdig : ∀ c ∈ digitsToChars A, isDig c = true := by
    intro c hc
    obtain ⟨d, hd, rfl⟩ := List.mem_map.mp hc
    exact (digitChar_facts d (hA d (List.mem_reverse.mp hd))).1
  have hBdig : ∀ c ∈ digitsToChars B, isDig c = true := by
    intro c hc
    obtain ⟨d, hd, rfl⟩ := List.mem_map.mp hc
    exact (digitChar_facts d (hB d (List.mem_reverse.mp hd))).1
  have hdot : isDig '.' = false := by decide
  obtain ⟨htake, hdrop⟩ :=
    takeWhile_middle isDig (digitsToChars A) '.' (digitsToChars B) hAdig hdot
  obtain ⟨htakeB, hdropB⟩ := takeWhile_all isDig (digitsToChars B) hBdig
  have hAne2 : (digitsToChars A).isEmpty = false := by
    cases hA3 : digitsToChars A with
    | nil =>
      exfalso
      apply hAne
      rw [digitsToChars] at hA3
      exact List.reverse_eq_nil_iff.mp (List.map_eq_nil_iff.mp hA3)
    | cons c t => rfl
  rw [parseUFloat_spec _ _ _ _ htake hdrop htakeB hdropB hAne2, mantVal,
    chNat_digitsToChars A hA, chNat_digitsToChars B hB]
  simp only [digitsToChars, List.length_map, List.length_reverse]
  push_cast
  ring_nf

theorem parseFloat_cons_digit (c : Char) (t : List Char)
    (hc : isDig c = true) : parseFloat (c :: t) = parseUFloat (c :: t) := by
  have h1 : c ≠ '-' := by
    intro h
    rw [h] at hc
    exact absurd hc (by decide)
  have h2 : c ≠ '+' := by
    intro h
    rw [h] at hc
    exact absurd hc (by decide)
  simp [parseFloat, h1, h2]

/-- The rendered decimal string of any rational parses back, with sign
restored, to exactly the rendered value, whenever the value has a
terminating decimal expansion certified by (q * 10 ^ q.den).den = 1 (every
binary floating-point value satisfies this). -/
theorem parseFloat_ratToDecimal (q : ℚ) (hq : (q * 10 ^ q.den).den = 1) :
    parseFloat (ratToDecimal q) = some q := by
  obtain ⟨s, A, B, heq, hsgn, hAne, hA, hB, hBlen, hval⟩ := ratToDecimal_struct q
  have hm : ((q * 10 ^ q.den).num : ℚ) = q * 10 ^ q.den := by
    conv_rhs => rw [← Rat.num_div_den (q * 10 ^ q.den)]
    rw [hq]
    simp
  have hpow : ((10 : ℚ) ^ q.den) ≠ 0 := by positivity
  have hbody : parseUFloat (digitsToChars A ++ '.' :: digitsToChars B) =
      some ((Nat.ofDigits 10 A : ℚ) +
        (Nat.ofDigits 10 B : ℚ) / 10 ^ B.length) :=
    parseUFloat_render A B hA hB hAne
  have hABval : (Nat.ofDigits 10 A : ℚ) +
      (Nat.ofDigits 10 B : ℚ) / 10 ^ B.length =
        ((q * 10 ^ q.den).num.natAbs : ℚ) / 10 ^ q.den := by
    rw [hBlen, ← hval]
    push_cast
    field_simp
    ring
  rcases hsgn with ⟨rfl, hpos⟩ | ⟨rfl, hneg⟩
  · rw [heq, List.nil_append]
    obtain ⟨a0, arest, hA0⟩ := List.exists_cons_of_ne_nil
      (fun hnil => hAne (List.reverse_eq_nil_iff.mp hnil) : A.reverse ≠ [])
    have hchar : digitsToChars A = digitChar a0 :: arest.map digitChar := by
      rw [digitsToChars, hA0, List.map_cons]
    have ha0 : a0 < 10 :=
      hA a0 (List.mem_reverse.mp (hA0 ▸ List.mem_cons_self a0 arest))
    rw [hchar, List.cons_append,
      parseFloat_cons_digit _ _ (digitChar_facts a0 ha0).1,
      ← List.cons_append, ← hchar, hbody, hABval]
    have hcast : ((q * 10 ^ q.den).num.natAbs : ℚ) =
        ((q * 10 ^ q.den).num : ℚ) := by
      rw [Int.cast_natAbs, abs_of_nonneg hpos]
    rw [hcast, hm]
    congr 1
    field_simp
  · rw [heq, List.singleton_append, List.cons_append]
    have hstep : parseFloat
        ('-' :: (digitsToChars A ++ '.' :: digitsToChars B)) =
          (parseUFloat (digitsToChars A ++ '.' :: digitsToChars B)).map
            (fun x => -x) := by
      simp [parseFloat]
    rw [hstep, hbody]
    simp only [Option.map_some']
    rw [hABval]
    have hcast : ((q * 10 ^ q.den).num.natAbs : ℚ) =
        -((q * 10 ^ q.den).num : ℚ) := by
      rw [Int.cast_natAbs, abs_of_nonpos (le_of_lt hneg), Int.cast_neg]
    rw [hcast, hm]
    congr 1
    field_simp

/-- The rendered decimal string is nonempty and free of commas and
whitespace. -/
theorem ratToDecimal_safe (q : ℚ) :
    ratToDecimal q ≠ [] ∧
      ∀ c ∈ ratToDecimal q, c ≠ ',' ∧ isPySpace c = false := by
  obtain ⟨s, A, B, heq, hsgn, hAne, hA, hB, _, _⟩ := ratToDecimal_struct q
  constructor
  · rw [heq]
    intro hnil
    exact List.cons_ne_nil _ _ (List.append_eq_nil.mp hnil).2
  · intro c hc
    rw [heq] at hc
    rcases List.mem_append.mp hc with hc1 | hcB
    · rcases List.mem_append.mp hc1 with hcs | hcA
      · rcases hsgn with ⟨rfl, -⟩ | ⟨rfl, -⟩
        · cases hcs
        · rw [List.mem_singleton.mp hcs]
          exact ⟨by decide, by decide⟩
      · obtain ⟨d, hd, rfl⟩ := List.mem_map.mp hcA
        exact ⟨(digitChar_facts d (hA d (List.mem_reverse.mp hd))).2.2.1,
          (digitChar_facts d (hA d (List.mem_reverse.mp hd))).2.2.2⟩
    · rcases List.mem_cons.mp hcB with rfl | hcB2
      · exact ⟨by decide, by decide⟩
      · obtain ⟨d, hd, rfl⟩ := List.mem_map.mp hcB2
        exact ⟨(digitChar_facts d (hB d (List.mem_reverse.mp hd))).2.2.1,
          (digitChar_facts d (hB d (List.mem_reverse.mp hd))).2.2.2⟩

theorem splitComma_no_comma (p : List Char) (h : ∀ c ∈ p, c ≠ ',') :
    splitComma p = [p] := by
  induction p with
  | nil => rfl
  | cons a p ih =>
    rw [splitComma]
    rw [if_neg (h a (List.mem_cons_self a p))]
    rw [ih (fun c hc => h c (List.mem_cons_of_mem a hc))]

theorem splitComma_append (p rest : List Char) (h : ∀ c ∈ p, c ≠ ',') :
    splitComma (p ++ ',' :: rest) = p :: splitComma rest := by
  induction p with
  | nil =>
    rw [List.nil_append, splitComma, if_pos rfl]
  | cons a p ih =>
    rw [List.cons_append, splitComma,
      if_neg (h a (List.mem_cons_self a p)),
      ih (fun c hc => h c (List.mem_cons_of_mem a hc))]

theorem splitComma_joinComma (parts : List (List Char)) (hne : parts ≠ [])
    (h : ∀ pt ∈ parts, ∀ c ∈ pt, c ≠ ',') :
    splitComma (joinComma parts) = parts := by
  induction parts with
  | nil => exact absurd rfl hne
  | cons p ps ih =>
    cases ps with
    | nil =>
      have hj : joinComma [p] = p := rfl
      rw [hj]
      exact splitComma_no_comma p (h p (List.mem_cons_self p []))
    | cons p2 ps2 =>
      have hj : joinComma (p :: p2 :: ps2) =
          p ++ ',' :: joinComma (p2 :: ps2) := rfl
      rw [hj, splitComma_append p (joinComma (p2 :: ps2))
        (h p (List.mem_cons_self p (p2 :: ps2))),
        ih (List.cons_ne_nil p2 ps2)
          (fun pt hpt => h pt (List.mem_cons_of_mem p hpt))]

theorem joinComma_mem (parts : List (List Char)) (c : Char)
    (hc : c ∈ joinComma parts) : c = ',' ∨ ∃ p ∈ parts, c ∈ p := by
  induction parts with
  | nil => cases hc
  | cons p ps ih =>
    cases ps with
    | nil =>
      right
      have hj : joinComma [p] = p := rfl
      exact ⟨p, List.mem_cons_self p [], by rwa [hj] at hc⟩
    | cons p2 ps2 =>
      have hj : joinComma (p :: p2 :: ps2) =
          p ++ ',' :: joinComma (p2 :: ps2) := rfl
      rw [hj] at hc
      rcases List.mem_append.mp hc with hcp | hcj
      · exact Or.inr ⟨p, List.mem_cons_self p (p2 :: ps2), hcp⟩
      · rcases List.mem_cons.mp hcj with rfl | hcj2
        · exact Or.inl rfl
        · rcases ih hcj2 with h1 | ⟨p3, hp3, hcp3⟩
          · exact Or.inl h1
          · exact Or.inr ⟨p3, List.mem_cons_of_mem p hp3, hcp3⟩

theorem parseAll_map_ratToDecimal (l : List ℚ)
    (h : ∀ v ∈ l, parseFloat (ratToDecimal v) = some v) :
    parseAll (l.map ratToDecimal) = some l := by
  induction l with
  | nil => rfl
  | cons v l ih =>
    rw [List.map_cons, parseAll, h v (List.mem_cons_self v l),
      ih (fun w hw => h w (List.mem_cons_of_mem v hw))]

/-- C9 counterexample: the empty vector is written as a bare newline, which
readBeta cannot read back (float of the empty string raises), so the
write/read round trip fails for it. -/
theorem writeBeta_empty_fails : readBeta (writeBeta []) = none := rfl

/-- C9 (amended): for every nonempty vector beta whose entries have
terminating decimal expansions (as every binary floating-point value has,
certified by (v * 10 ^ v.den).den = 1 in the exact-rational model of
floats), writing beta with writeBeta and reading the file content back with
readBeta returns exactly beta: same length, equal entries. -/
theorem writeBeta_readBeta_roundTrip (beta : List ℚ) (hne : beta ≠ [])
    (hrep : ∀ v ∈ beta, (v * 10 ^ v.den).den = 1) :
    readBeta (writeBeta beta) = some beta := by
  have hpt : ∀ pt ∈ beta.map ratToDecimal, ∀ c ∈ pt, c ≠ ',' := by
    intro pt hpt c hc
    obtain ⟨v, -, rfl⟩ := List.mem_map.mp hpt
    exact ((ratToDecimal_safe v).2 c hc).1
  have hjoin_chars : ∀ c ∈ joinComma (beta.map ratToDecimal),
      isPySpace c = false := by
    intro c hc
    rcases joinComma_mem _ c hc with rfl | ⟨p, hp, hcp⟩
    · decide
    · obtain ⟨v, -, rfl⟩ := List.mem_map.mp hp
      exact ((ratToDecimal_safe v).2 c hcp).2
  have hjoin_ne : joinComma (beta.map ratToDecimal) ≠ [] := by
    obtain ⟨b, bs, rfl⟩ := List.exists_cons_of_ne_nil hne
    cases bs with
    | nil =>
      have hj : joinComma ((b :: []).map ratToDecimal) = ratToDecimal b := rfl
      rw [hj]
      exact (ratToDecimal_safe b).1
    | cons b2 bs2 =>
      have hj : joinComma ((b :: b2 :: bs2).map ratToDecimal) =
          ratToDecimal b ++
            ',' :: joinComma ((b2 :: bs2).map ratToDecimal) := rfl
      rw [hj]
      intro hnil
      exact List.cons_ne_nil _ _ (List.append_eq_nil.mp hnil).2
  rw [writeBeta, readBeta,
    pyStrip_append_newline _ hjoin_ne hjoin_chars,
    splitComma_joinComma _ (by simpa using hne) hpt,
    parseAll_map_ratToDecimal beta
      (fun v hv => parseFloat_ratToDecimal v (hrep v hv))]

/-- C9 witness: the round trip at a concrete two-entry vector. -/
theorem writeBeta_readBeta_roundTrip_witness :
    readBeta (writeBeta [1, -2]) = some [1, -2] := by
  refine writeBeta_readBeta_roundTrip [1, -2] (by decide) ?_
  intro v hv
  rcases List.mem_cons.mp hv with rfl | hv2
  · have h1 : ((1 : ℚ) * 10 ^ (1 : ℚ).den) = ((10 : ℤ) : ℚ) := by
      rw [Rat.den_one]
      norm_num
    rw [h1]
    exact Rat.den_intCast 10
  · have hv3 : v = -2 := by simpa using hv2
    subst hv3
    have hden : ((-2 : ℚ)).den = 1 := by
      rw [show ((-2 : ℚ)) = ((-2 : ℤ) : ℚ) by norm_num]
      exact Rat.den_intCast (-2)
    have h1 : ((-2 : ℚ) * 10 ^ ((-2 : ℚ)).den) = ((-20 : ℤ) : ℚ) := by
      rw [hden]
      norm_num
    rw [h1]
    exact Rat.den_intCast (-20)

end ParallelRegression

